import Mathlib

/-!
# gotest2rdjsonl: event-to-diagnostic translation

A shallow embedding of `cmd/gotest2rdjsonl/main.go`.

* Go `string` values are modelled by Lean `String`.  Every string the program
  handles comes out of `encoding/json`, which only produces valid UTF-8, so a
  sequence of Unicode scalar values loses nothing.
* Go pointers (`*RDFLocation`, `*RDFRange`) are modelled by `Option`; `nil` is
  `none`.
* Go slices are modelled by `List`; the program holds a single slice variable,
  so no aliasing is observable.
* The standard-library functions `strings.TrimSpace`, `strings.SplitN`,
  `strings.Index` and `strconv.Atoi` are modelled after the Go standard
  library.
-/

set_option autoImplicit false

namespace Gotest2rdjsonl

/-! ## Data model -/

/-- TestEvent is one record of the `go test -json` stream.  `Time` (an instant)
and `Elapsed` (a `float64` number of seconds) are carried along but never read
by the program. -/
structure TestEvent where
  Time : Int
  Action : String
  Package : String
  Test : String
  Elapsed : Rat
  Output : String

/-- RDFSeverity is `type RDFSeverity int`. -/
abbrev RDFSeverity := Int

/-- The constant `RDFSeverityUnknown` (`iota` = 0). -/
def RDFSeverityUnknown : RDFSeverity := 0
/-- The constant `RDFSeverityError` (`iota` = 1). -/
def RDFSeverityError : RDFSeverity := 1
/-- The constant `RDFSeverityWarning` (`iota` = 2). -/
def RDFSeverityWarning : RDFSeverity := 2
/-- The constant `RDFSeverityInfo` (`iota` = 3). -/
def RDFSeverityInfo : RDFSeverity := 3

/-- RDFPosition is a line and column; the zero value is `0, 0`. -/
structure RDFPosition where
  Line : Int
  Column : Int
deriving DecidableEq

/-- RDFRange is a start and an end position. -/
structure RDFRange where
  Start : RDFPosition
  End : RDFPosition
deriving DecidableEq

/-- RDFLocation is a path and a (nullable) range. -/
structure RDFLocation where
  Path : String
  Range : Option RDFRange
deriving DecidableEq

/-- RDFDiagnostic is the emitted record: message, severity, nullable location. -/
structure RDFDiagnostic where
  Message : String
  Severity : RDFSeverity
  Location : Option RDFLocation
deriving DecidableEq

/-! ## Standard-library functions used by `parseLoc` -/

/-- The predicate `unicode.IsSpace`: the six ASCII white-space characters,
U+0085, U+00A0 and the remaining code points with the White_Space property. -/
def isSpace (c : Char) : Bool :=
  let n := c.toNat
  (0x09 ≤ n && n ≤ 0x0d) || n == 0x20 || n == 0x85 || n == 0xa0 || n == 0x1680 ||
    (0x2000 ≤ n && n ≤ 0x200a) || n == 0x2028 || n == 0x2029 || n == 0x202f ||
    n == 0x205f || n == 0x3000

/-- The function `strings.TrimSpace`: all leading and trailing white space removed. -/
def TrimSpace (s : String) : String :=
  ⟨((s.data.dropWhile isSpace).reverse.dropWhile isSpace).reverse⟩

/-- The function `strings.Index` on character lists: the position of the first
occurrence of `sep` in `s`, or `none` (Go: -1). -/
def Index : List Char → List Char → Option Nat
  | [], sep => if sep = [] then some 0 else none
  | c :: t, sep =>
    if sep.isPrefixOf (c :: t) then some 0 else (Index t sep).map (· + 1)

/-- The loop of `strings.genSplit` (for a non-empty separator): at most `k`
cuts at successive occurrences of `sep`; the last element is the unsplit
remainder. -/
def splitLoop (sep : List Char) : Nat → List Char → List (List Char)
  | 0, s => [s]
  | k + 1, s =>
    match Index s sep with
    | none => [s]
    | some m => s.take m :: splitLoop sep k (s.drop (m + sep.length))

/-- The function `strings.SplitN` for a non-empty separator: `n = 0` gives no
substrings, `n > 0` at most `n` substrings.  (`n < 0` and the empty separator
are other modes of the Go function, never used by this program, and are left
out: `n` is a natural number and an empty `sep` gives the whole string.  Go
also lowers `n` to `len(s) + 1` before it allocates the result; a string has
at most `len(s)` occurrences of the separator, so the loop stops at the same
place either way.) -/
def SplitN (s sep : String) (n : Nat) : List String :=
  if n = 0 then []
  else if sep.data = [] then [s]
  else (splitLoop sep.data (n - 1) s.data).map String.mk

/-- The error of `strconv.Atoi`: `ErrSyntax` or `ErrRange`. -/
inductive NumError where
  | ErrSyntax
  | ErrRange
deriving DecidableEq

/-- The size in bits of a Go `int` and `uint` (64-bit targets). -/
def intSize : Nat := 64

/-- A decimal digit `0`..`9`. -/
def isDigit (c : Char) : Bool := 48 ≤ c.toNat && c.toNat ≤ 57

/-- The value of a string of decimal digits, most significant first. -/
def digitsVal (cs : List Char) : Nat :=
  cs.foldl (fun n c => n * 10 + (c.toNat - 48)) 0

/-- The function `strconv.Atoi`: an optional sign, then one or more decimal
digits; the value must fit a Go `int`. -/
def Atoi (s : String) : Except NumError Int :=
  let (neg, ds) : Bool × List Char :=
    match s.data with
    | '-' :: t => (true, t)
    | '+' :: t => (false, t)
    | cs => (false, cs)
  if ds = [] then .error .ErrSyntax
  else if !ds.all isDigit then .error .ErrSyntax
  else
    let un := digitsVal ds
    if !neg && 2 ^ (intSize - 1) ≤ un then .error .ErrRange
    else if neg && 2 ^ (intSize - 1) < un then .error .ErrRange
    else .ok (if neg then -(un : Int) else (un : Int))

/-! ## The program -/

/-- The function `parseLoc`: `(nil, false)` is `none`, `(loc, true)` is `some loc`. -/
def parseLoc (s : String) : Option RDFLocation :=
  let parts := SplitN (TrimSpace s) ":" 3
  if parts.length < 3 then none
  else
    match Atoi (parts.getD 1 "") with
    | .error _ => none
    | .ok line =>
      some { Path := parts.getD 0 "",
             Range := some { Start := { Line := line, Column := 0 },
                             End := { Line := 0, Column := 0 } } }

/-- The Go slice expression `l[lo:hi]`. -/
def slice {α : Type} (l : List α) (lo hi : Nat) : List α := (l.take hi).drop lo

/-- The conversion `int(u)` of a `uint` to `int`: two's complement wrap-around. -/
def uintToInt (u : Nat) : Int :=
  let v := u % 2 ^ intSize
  if v < 2 ^ (intSize - 1) then (v : Int) else (v : Int) - 2 ^ intSize

/-- One iteration of the `for _, te := range bufs` loop of the `fail` and
`skip` cases. -/
def accumulate (diag : RDFDiagnostic) (te : TestEvent) : RDFDiagnostic :=
  let diag := { diag with Message := diag.Message ++ te.Output }
  match parseLoc te.Output with
  | some loc => { diag with Location := some loc }
  | none => diag

/-- The diagnostic built by the `fail` and `skip` cases from the window. -/
def buildDiag (sev : RDFSeverity) (bufs : List TestEvent) : RDFDiagnostic :=
  bufs.foldl accumulate { Message := "", Severity := sev, Location := none }

/-- The state of the loop in `run`: the window `bufs`, the list `diags`, and
the diagnostics handed to the encoder `enc` (standard output), oldest first. -/
structure State where
  bufs : List TestEvent
  diags : List RDFDiagnostic
  encoded : List RDFDiagnostic

/-- The state before the first event. -/
def State.init : State := { bufs := [], diags := [], encoded := [] }

/-- The `fail` and `skip` cases of the switch, which differ in the severity only. -/
def terminate (sev : RDFSeverity) (st : State) : State :=
  let diag := buildDiag sev st.bufs
  if diag.Location = none then st
  else
    { bufs := slice st.bufs 0 st.bufs.length,
      diags := st.diags ++ [diag],
      encoded := st.encoded ++ [diag] }

/-- The body of the loop of `run` for one decoded event; `bufLines` is the
value of the flag `-buf-lines`. -/
def step (bufLines : Nat) (st : State) (ev : TestEvent) : State :=
  if ev.Action = "output" then
    let bufs := st.bufs ++ [ev]
    if uintToInt bufLines < (bufs.length : Int) then
      { st with bufs := slice bufs 1 bufs.length }
    else
      { st with bufs := bufs }
  else if ev.Action = "fail" then terminate RDFSeverityError st
  else if ev.Action = "skip" then terminate RDFSeverityInfo st
  else if ev.Action = "run" then st
  else { st with bufs := slice st.bufs 0 st.bufs.length }

/-- The loop of `run` over a list of decoded events. -/
def process (bufLines : Nat) (st : State) (evs : List TestEvent) : State :=
  evs.foldl (step bufLines) st

/-- The text of a line before its first `:` (the whole line when it has none). -/
def beforeColon (t : List Char) : List Char := t.takeWhile (· != ':')

/-- The text of a line after its first `:` (empty when it has none). -/
def afterColon (t : List Char) : List Char := (t.dropWhile (· != ':')).drop 1

/-- An event with the given action and output, every other field zero. -/
def mkEvent (action output : String) : TestEvent :=
  { Time := 0, Action := action, Package := "", Test := "", Elapsed := 0, Output := output }

/-- Whether an event is a terminating event, `fail` or `skip`. -/
def isTerminating (ev : TestEvent) : Bool :=
  decide (ev.Action = "fail" ∨ ev.Action = "skip")

/-- The loop of `run` over the successive results of `dec.Decode(&ev)`: a
decoded event, or an error other than `io.EOF`; the end of the list is
`io.EOF`.  The result is the value `run` returns and the state it stops in. -/
def runLoop (bufLines : Nat) : State → List (Except String TestEvent) → Int × State
  | st, [] => (0, st)
  | st, .error _ :: _ => (1, st)
  | st, .ok ev :: rest => runLoop bufLines (step bufLines st ev) rest

/-- The call `make([]TestEvent, 0, bufLines+1)` of `run`.  The capacity
`bufLines+1` is computed in `uint` arithmetic, so it wraps around at `2 ^ 64`.
The runtime panics (`makeslice: cap out of range`) when the capacity does not
fit a non-negative `int` or is above `maxCap`, the largest capacity the runtime
allocates for a `[]TestEvent` (a runtime constant, `maxAlloc` divided by the
size of a `TestEvent`, or less when memory is short); `none` is that failure,
`some []` the empty slice. -/
def makeBufs (maxCap bufLines : Nat) : Option (List TestEvent) :=
  let cap := (bufLines + 1) % 2 ^ intSize
  if cap < 2 ^ (intSize - 1) ∧ cap ≤ maxCap then some [] else none

/-- The function `run`: `input` is what `openInputStream` gives, an error or
the stream as the list of its decode results.  The result is the exit status
of the program and the diagnostics written to standard output: 1 and nothing
when the input cannot be opened, 2 and nothing when the allocation of `bufs`
panics (before any record is read), and otherwise what the loop returns. -/
def run (maxCap bufLines : Nat) (input : Except String (List (Except String TestEvent))) :
    Int × List RDFDiagnostic :=
  match input with
  | .error _ => (1, [])
  | .ok records =>
    match makeBufs maxCap bufLines with
    | none => (2, [])
    | some bufs =>
      ((runLoop bufLines { bufs := bufs, diags := [], encoded := [] } records).1,
       (runLoop bufLines { bufs := bufs, diags := [], encoded := [] } records).2.encoded)

/-! ## Lemmas on the diagnostic builder -/

theorem foldl_accumulate_Severity (bufs : List TestEvent) (d : RDFDiagnostic) :
    (bufs.foldl accumulate d).Severity = d.Severity := by
  induction bufs generalizing d with
  | nil => rfl
  | cons te rest ih =>
    rw [List.foldl_cons, ih]
    unfold accumulate
    cases parseLoc te.Output <;> rfl

theorem accumulate_Message (d : RDFDiagnostic) (te : TestEvent) :
    (accumulate d te).Message = d.Message ++ te.Output := by
  unfold accumulate
  cases parseLoc te.Output <;> rfl

theorem foldl_append_string (l : List String) (acc : String) :
    l.foldl (· ++ ·) acc = acc ++ l.foldl (· ++ ·) "" := by
  induction l generalizing acc with
  | nil => simp
  | cons a rest ih =>
    rw [List.foldl_cons, List.foldl_cons, ih, ih ("" ++ a)]
    simp [String.append_assoc]

theorem foldl_accumulate_Message (bufs : List TestEvent) (d : RDFDiagnostic) :
    (bufs.foldl accumulate d).Message = d.Message ++ String.join (bufs.map TestEvent.Output) := by
  induction bufs generalizing d with
  | nil => simp [String.join]
  | cons te rest ih =>
    rw [List.foldl_cons, ih, accumulate_Message]
    simp only [String.join, List.map_cons, List.foldl_cons]
    rw [foldl_append_string _ ("" ++ te.Output)]
    simp [String.append_assoc]

theorem accumulate_Location (d : RDFDiagnostic) (te : TestEvent) :
    (accumulate d te).Location = (parseLoc te.Output).orElse (fun _ => d.Location) := by
  unfold accumulate
  cases parseLoc te.Output <;> rfl

theorem foldl_accumulate_Location_none (bufs : List TestEvent) (d : RDFDiagnostic)
    (h : ∀ te ∈ bufs, parseLoc te.Output = none) :
    (bufs.foldl accumulate d).Location = d.Location := by
  induction bufs generalizing d with
  | nil => rfl
  | cons te rest ih =>
    rw [List.foldl_cons, ih _ (fun x hx => h x (List.mem_cons_of_mem _ hx)),
      accumulate_Location, h te (List.mem_cons_self _ _)]
    rfl

theorem foldl_accumulate_Location_last (pre post : List TestEvent) (te : TestEvent)
    (loc : RDFLocation) (d : RDFDiagnostic) (hte : parseLoc te.Output = some loc)
    (hpost : ∀ x ∈ post, parseLoc x.Output = none) :
    ((pre ++ te :: post).foldl accumulate d).Location = some loc := by
  rw [List.foldl_append, List.foldl_cons, foldl_accumulate_Location_none _ _ hpost,
    accumulate_Location, hte]
  rfl

theorem foldl_accumulate_Location_eq_none (bufs : List TestEvent) (d : RDFDiagnostic) :
    (bufs.foldl accumulate d).Location = none ↔
      d.Location = none ∧ ∀ te ∈ bufs, parseLoc te.Output = none := by
  induction bufs generalizing d with
  | nil => simp
  | cons te rest ih =>
    rw [List.foldl_cons, ih, accumulate_Location]
    cases hp : parseLoc te.Output with
    | none => simp [Option.orElse, hp]
    | some loc => simp [Option.orElse, hp]

theorem buildDiag_Location_eq_none (sev : RDFSeverity) (bufs : List TestEvent) :
    (buildDiag sev bufs).Location = none ↔ ∀ te ∈ bufs, parseLoc te.Output = none := by
  unfold buildDiag
  rw [foldl_accumulate_Location_eq_none]
  simp

theorem slice_full {α : Type} (l : List α) : slice l 0 l.length = l := by
  simp [slice]

theorem terminate_bufs (sev : RDFSeverity) (st : State) : (terminate sev st).bufs = st.bufs := by
  unfold terminate
  by_cases h : (buildDiag sev st.bufs).Location = none
  · simp [h]
  · simp [h, slice_full]

theorem terminate_encoded_of_none (sev : RDFSeverity) (st : State)
    (h : (buildDiag sev st.bufs).Location = none) : (terminate sev st).encoded = st.encoded := by
  simp [terminate, h]

theorem terminate_encoded_of_some (sev : RDFSeverity) (st : State)
    (h : (buildDiag sev st.bufs).Location ≠ none) :
    (terminate sev st).encoded = st.encoded ++ [buildDiag sev st.bufs] := by
  simp [terminate, h]

/-- A `fail` or `skip` event runs `terminate` with the severity of its case. -/
theorem step_terminating (N : Nat) (st : State) (ev : TestEvent)
    (hev : ev.Action = "fail" ∨ ev.Action = "skip") :
    step N st ev = terminate (if ev.Action = "fail" then RDFSeverityError else RDFSeverityInfo) st := by
  rcases hev with h | h
  · have h1 : ev.Action ≠ "output" := by rw [h]; decide
    simp [step, h]
  · have h1 : ev.Action ≠ "output" := by rw [h]; decide
    have h2 : ev.Action ≠ "fail" := by rw [h]; decide
    simp [step, h]

/-- What a `fail` or `skip` event hands to the encoder. -/
theorem step_terminating_encoded (N : Nat) (st : State) (ev : TestEvent)
    (hev : ev.Action = "fail" ∨ ev.Action = "skip") :
    ((∀ te ∈ st.bufs, parseLoc te.Output = none) ∧ (step N st ev).encoded = st.encoded) ∨
    ((∃ te ∈ st.bufs, parseLoc te.Output ≠ none) ∧
      (step N st ev).encoded = st.encoded ++
        [buildDiag (if ev.Action = "fail" then RDFSeverityError else RDFSeverityInfo) st.bufs]) := by
  rw [step_terminating N st ev hev]
  generalize (if ev.Action = "fail" then RDFSeverityError else RDFSeverityInfo) = sev
  by_cases h : (buildDiag sev st.bufs).Location = none
  · left
    exact ⟨(buildDiag_Location_eq_none sev st.bufs).1 h, terminate_encoded_of_none sev st h⟩
  · right
    refine ⟨?_, terminate_encoded_of_some sev st h⟩
    by_contra hc
    push_neg at hc
    exact h ((buildDiag_Location_eq_none sev st.bufs).2 hc)

/-- An event that is neither `fail` nor `skip` hands nothing to the encoder. -/
theorem step_encoded_of_not_terminating (N : Nat) (st : State) (ev : TestEvent)
    (h1 : ev.Action ≠ "fail") (h2 : ev.Action ≠ "skip") :
    (step N st ev).encoded = st.encoded := by
  unfold step
  simp only [h1, h2, if_false]
  split_ifs <;> rfl

theorem uintToInt_le (u : Nat) : uintToInt u ≤ (u : Int) := by
  unfold uintToInt
  have h1 : u % 2 ^ intSize ≤ u := Nat.mod_le _ _
  have h2 : (0 : Int) < 2 ^ intSize := by positivity
  simp only
  split_ifs <;> omega

/-- The window never grows beyond the capacity. -/
theorem step_bufs_length_le (N : Nat) (st : State) (ev : TestEvent)
    (h : st.bufs.length ≤ N) : (step N st ev).bufs.length ≤ N := by
  have hu := uintToInt_le N
  by_cases h1 : ev.Action = "output"
  · by_cases h2 : uintToInt N < ((st.bufs ++ [ev]).length : Int)
    · simp only [step, h1, h2, if_true, slice]
      simpa using h
    · simp only [step, h1, h2, if_true, if_false]
      simp only [List.length_append, List.length_singleton] at h2 ⊢
      push_cast at h2
      omega
  · by_cases h2 : ev.Action = "fail"
    · rw [step_terminating N st ev (Or.inl h2), terminate_bufs]
      exact h
    · by_cases h3 : ev.Action = "skip"
      · rw [step_terminating N st ev (Or.inr h3), terminate_bufs]
        exact h
      · by_cases h4 : ev.Action = "run"
        · simp only [step, h1, h2, h3, h4, if_true, if_false]
          exact h
        · simp only [step, h1, h2, h3, h4, if_false, slice_full]
          exact h

theorem process_bufs_length_le (N : Nat) (evs : List TestEvent) (st : State)
    (h : st.bufs.length ≤ N) : (process N st evs).bufs.length ≤ N := by
  induction evs generalizing st with
  | nil => exact h
  | cons ev rest ih => exact ih _ (step_bufs_length_le N st ev h)

/-! ## The claims on the event classifier -/

/-- C1: processing a `fail` or `skip` event hands exactly one diagnostic to the
encoder when `parseLoc` succeeds on at least one output line of the window, and
hands it nothing when `parseLoc` succeeds on no line; a diagnostic that is
emitted always carries a location. -/
theorem terminating_event_emits_iff_parseable (N : Nat) (st : State) (ev : TestEvent)
    (hev : ev.Action = "fail" ∨ ev.Action = "skip") :
    ((∃ te ∈ st.bufs, parseLoc te.Output ≠ none) →
      ∃ d, (step N st ev).encoded = st.encoded ++ [d] ∧ d.Location ≠ none) ∧
    ((∀ te ∈ st.bufs, parseLoc te.Output = none) → (step N st ev).encoded = st.encoded) ∧
    (∀ d, (step N st ev).encoded = st.encoded ++ [d] → d.Location ≠ none) := by
  have hloc : ∀ sev, (∃ te ∈ st.bufs, parseLoc te.Output ≠ none) →
      (buildDiag sev st.bufs).Location ≠ none := by
    intro sev ⟨te, hte, hp⟩ hc
    exact hp ((buildDiag_Location_eq_none sev st.bufs).1 hc te hte)
  rcases step_terminating_encoded N st ev hev with ⟨hnone, henc⟩ | ⟨hsome, henc⟩
  · refine ⟨?_, fun _ => henc, ?_⟩
    · intro ⟨te, hte, hp⟩
      exact absurd (hnone te hte) hp
    · intro d hd
      rw [henc] at hd
      exact absurd hd (by simp)
  · refine ⟨fun _ => ⟨_, henc, hloc _ hsome⟩, ?_, ?_⟩
    · intro hnone
      obtain ⟨te, hte, hp⟩ := hsome
      exact absurd (hnone te hte) hp
    · intro d hd
      rw [henc] at hd
      have hd2 := List.append_cancel_left hd
      simp only [List.cons.injEq, and_true] at hd2
      rw [← hd2]
      exact hloc _ hsome

/-- The witness of C1: a window holding `foo/bar.go:42: boom` followed by `fail`
emits one diagnostic; a window holding `no location here` followed by `skip`
emits none. -/
theorem terminating_event_emits_iff_parseable_witness :
    (∃ d, (step 3 ⟨[mkEvent "output" "foo/bar.go:42: boom"], [], []⟩ (mkEvent "fail" "")).encoded
        = [d] ∧ d.Location ≠ none) ∧
    (step 1 ⟨[mkEvent "output" "no location here"], [], []⟩ (mkEvent "skip" "")).encoded = [] :=
  ⟨(terminating_event_emits_iff_parseable 3 ⟨[mkEvent "output" "foo/bar.go:42: boom"], [], []⟩
      (mkEvent "fail" "") (Or.inl rfl)).1 ⟨_, List.mem_singleton_self _, by decide⟩,
   (terminating_event_emits_iff_parseable 1 ⟨[mkEvent "output" "no location here"], [], []⟩
      (mkEvent "skip" "") (Or.inr rfl)).2.1 (by decide)⟩

/-- C2: when a `fail` or `skip` event is processed, the location of the
diagnostic it emits is `parseLoc` of the last line of the window on which
`parseLoc` succeeds (every later line of the window fails to parse); and a
window with at least one parseable line has such a last parseable line. -/
theorem terminating_event_location_is_last_parseable (N : Nat) (st : State) (ev : TestEvent)
    (hev : ev.Action = "fail" ∨ ev.Action = "skip") :
    (∀ pre te post loc, st.bufs = pre ++ te :: post → parseLoc te.Output = some loc →
      (∀ x ∈ post, parseLoc x.Output = none) →
      ∃ d, (step N st ev).encoded = st.encoded ++ [d] ∧ d.Location = some loc) ∧
    ((∃ te ∈ st.bufs, parseLoc te.Output ≠ none) →
      ∃ pre te post loc, st.bufs = pre ++ te :: post ∧ parseLoc te.Output = some loc ∧
        ∀ x ∈ post, parseLoc x.Output = none) := by
  constructor
  · intro pre te post loc hw hte hpost
    rcases step_terminating_encoded N st ev hev with ⟨hnone, _⟩ | ⟨_, henc⟩
    · have := hnone te (by rw [hw]; simp)
      rw [hte] at this
      exact absurd this (by simp)
    · refine ⟨_, henc, ?_⟩
      unfold buildDiag
      rw [hw]
      exact foldl_accumulate_Location_last pre post te loc _ hte hpost
  · generalize st.bufs = w
    intro h
    induction w with
    | nil => simp at h
    | cons a rest ih =>
      by_cases hr : ∃ te ∈ rest, parseLoc te.Output ≠ none
      · obtain ⟨pre, te, post, loc, hw, hte, hpost⟩ := ih hr
        exact ⟨a :: pre, te, post, loc, by rw [hw]; rfl, hte, hpost⟩
      · push_neg at hr
        obtain ⟨te, hte, hp⟩ := h
        rcases List.mem_cons.1 hte with rfl | hmem
        · obtain ⟨loc, hloc⟩ := Option.ne_none_iff_exists'.1 hp
          exact ⟨[], te, rest, loc, rfl, hloc, hr⟩
        · exact absurd (hr te hmem) hp

/-- The witness of C2: in the window `a.go:1: x`, `b.go:2: y`, `no location here`
the second line is the last parseable one, and `fail` emits a diagnostic located
at `b.go` line 2. -/
theorem terminating_event_location_is_last_parseable_witness :
    ∃ d, (step 3 ⟨[mkEvent "output" "a.go:1: x", mkEvent "output" "b.go:2: y",
        mkEvent "output" "no location here"], [], []⟩ (mkEvent "fail" "")).encoded = [d] ∧
      d.Location = some ⟨"b.go", some ⟨⟨2, 0⟩, ⟨0, 0⟩⟩⟩ :=
  (terminating_event_location_is_last_parseable 3
    ⟨[mkEvent "output" "a.go:1: x", mkEvent "output" "b.go:2: y",
      mkEvent "output" "no location here"], [], []⟩ (mkEvent "fail" "") (Or.inl rfl)).1
    [mkEvent "output" "a.go:1: x"] (mkEvent "output" "b.go:2: y")
    [mkEvent "output" "no location here"] ⟨"b.go", some ⟨⟨2, 0⟩, ⟨0, 0⟩⟩⟩ rfl (by decide)
    (by decide)

/-- C3: the message of a diagnostic emitted by a `fail` or `skip` event is the
concatenation, oldest first, of the `Output` of every event of the window,
with nothing inserted. -/
theorem emitted_message_is_concatenation (N : Nat) (st : State) (ev : TestEvent)
    (d : RDFDiagnostic) (hev : ev.Action = "fail" ∨ ev.Action = "skip")
    (hd : (step N st ev).encoded = st.encoded ++ [d]) :
    d.Message = String.join (st.bufs.map TestEvent.Output) := by
  rcases step_terminating_encoded N st ev hev with ⟨_, henc⟩ | ⟨_, henc⟩
  · rw [henc] at hd
    exact absurd hd (by simp)
  · rw [henc] at hd
    have hd2 := List.append_cancel_left hd
    simp only [List.cons.injEq, and_true] at hd2
    rw [← hd2]
    unfold buildDiag
    rw [foldl_accumulate_Message]
    simp

/-- The witness of C3: the window holding the single line `foo/bar.go:42: boom`
followed by `fail` emits a diagnostic with exactly that message. -/
theorem emitted_message_is_concatenation_witness :
    (step 3 ⟨[mkEvent "output" "foo/bar.go:42: boom"], [], []⟩ (mkEvent "fail" "")).encoded =
      [⟨"foo/bar.go:42: boom", RDFSeverityError, some ⟨"foo/bar.go", some ⟨⟨42, 0⟩, ⟨0, 0⟩⟩⟩⟩] ∧
    (⟨"foo/bar.go:42: boom", RDFSeverityError,
      some ⟨"foo/bar.go", some ⟨⟨42, 0⟩, ⟨0, 0⟩⟩⟩⟩ : RDFDiagnostic).Message =
        String.join ["foo/bar.go:42: boom"] :=
  ⟨by decide,
   emitted_message_is_concatenation 3 ⟨[mkEvent "output" "foo/bar.go:42: boom"], [], []⟩
    (mkEvent "fail" "") _ (Or.inl rfl) (by decide)⟩

/-- C4: a diagnostic emitted for a `fail` event has severity Error, the integer
1; one emitted for a `skip` event has severity Info, the integer 3; and whatever
the event, an emitted diagnostic has neither severity Unknown (0) nor Warning (2). -/
theorem emitted_severity (N : Nat) (st : State) (ev : TestEvent) (d : RDFDiagnostic)
    (hd : (step N st ev).encoded = st.encoded ++ [d]) :
    (ev.Action = "fail" → d.Severity = RDFSeverityError ∧ d.Severity = 1) ∧
    (ev.Action = "skip" → d.Severity = RDFSeverityInfo ∧ d.Severity = 3) ∧
    d.Severity ≠ RDFSeverityUnknown ∧ d.Severity ≠ 0 ∧
    d.Severity ≠ RDFSeverityWarning ∧ d.Severity ≠ 2 := by
  by_cases hev : ev.Action = "fail" ∨ ev.Action = "skip"
  · rcases step_terminating_encoded N st ev hev with ⟨_, henc⟩ | ⟨_, henc⟩
    · rw [henc] at hd
      exact absurd hd (by simp)
    · rw [henc] at hd
      have hd2 := List.append_cancel_left hd
      simp only [List.cons.injEq, and_true] at hd2
      have hsev : d.Severity = if ev.Action = "fail" then RDFSeverityError else RDFSeverityInfo := by
        rw [← hd2]
        unfold buildDiag
        rw [foldl_accumulate_Severity]
      rcases hev with h | h
      · simp [hsev, h, RDFSeverityError, RDFSeverityInfo, RDFSeverityUnknown, RDFSeverityWarning]
      · have hne : ¬ ("skip" = "fail") := by decide
        simp [hsev, h, hne, RDFSeverityError, RDFSeverityInfo, RDFSeverityUnknown,
          RDFSeverityWarning]
  · push_neg at hev
    rw [step_encoded_of_not_terminating N st ev hev.1 hev.2] at hd
    exact absurd hd (by simp)

/-- The witness of C4: the diagnostic emitted for `skip` on the window holding
`a.go:1: x` has severity 3. -/
theorem emitted_severity_witness :
    (step 3 ⟨[mkEvent "output" "a.go:1: x"], [], []⟩ (mkEvent "skip" "")).encoded =
      [⟨"a.go:1: x", 3, some ⟨"a.go", some ⟨⟨1, 0⟩, ⟨0, 0⟩⟩⟩⟩] ∧
    (⟨"a.go:1: x", 3, some ⟨"a.go", some ⟨⟨1, 0⟩, ⟨0, 0⟩⟩⟩⟩ : RDFDiagnostic).Severity
      = RDFSeverityInfo :=
  ⟨by decide,
   ((emitted_severity 3 ⟨[mkEvent "output" "a.go:1: x"], [], []⟩ (mkEvent "skip" "") _
      (by decide)).2.1 rfl).1⟩

/-- C5: for every capacity `N`, after each event of a sequence processed from
the empty window (that is, after every prefix of the sequence) the window holds
at most `N` events. -/
theorem window_length_le_capacity (N : Nat) (evs : List TestEvent) (k : Nat) :
    (process N State.init (evs.take k)).bufs.length ≤ N :=
  process_bufs_length_le N (evs.take k) State.init (Nat.zero_le N)

/-- C6: evaluation at the failing inputs.  With capacity 3, the window holding
`foo/bar.go:42: boom` still holds that line after `fail` has emitted its
diagnostic, and the window holding `ok` still holds it after a `skip` that
emitted nothing; as a result the events `output "foo/bar.go:42: boom"`, `fail`,
`fail` emit two diagnostics, the second one from the window left by the first. -/
theorem window_not_cleared_by_terminating_event :
    ((step 3 ⟨[mkEvent "output" "foo/bar.go:42: boom"], [], []⟩ (mkEvent "fail" "")).bufs.map
        TestEvent.Output = ["foo/bar.go:42: boom"] ∧
      (step 3 ⟨[mkEvent "output" "foo/bar.go:42: boom"], [], []⟩
        (mkEvent "fail" "")).encoded.length = 1) ∧
    ((step 3 ⟨[mkEvent "output" "ok"], [], []⟩ (mkEvent "skip" "")).bufs.map
        TestEvent.Output = ["ok"] ∧
      (step 3 ⟨[mkEvent "output" "ok"], [], []⟩ (mkEvent "skip" "")).encoded = []) ∧
    (process 3 State.init [mkEvent "output" "foo/bar.go:42: boom", mkEvent "fail" "",
      mkEvent "fail" ""]).encoded.length = 2 := by
  decide

/-- C7: evaluation at the failing input.  With capacity 3, after the events
`output "ok"`, `pass` processed from the empty window, the window still holds
the line `ok`; and after `output "a.go:1: x"`, `pass`, a following `fail` emits
a diagnostic built from the line that `pass` left in the window. -/
theorem window_not_cleared_by_other_event :
    (process 3 State.init [mkEvent "output" "ok", mkEvent "pass" ""]).bufs.map
      TestEvent.Output = ["ok"] ∧
    (process 3 State.init [mkEvent "output" "a.go:1: x", mkEvent "pass" "",
      mkEvent "fail" ""]).encoded =
        [⟨"a.go:1: x", RDFSeverityError, some ⟨"a.go", some ⟨⟨1, 0⟩, ⟨0, 0⟩⟩⟩⟩] := by
  decide

/-- C8: a `run` event leaves the whole state as it was: the window holds the
same events in the same order, and nothing is handed to the encoder. -/
theorem run_event_is_noop (N : Nat) (st : State) (ev : TestEvent) (hev : ev.Action = "run") :
    step N st ev = st ∧ (step N st ev).bufs = st.bufs ∧
      (step N st ev).encoded = st.encoded := by
  have h : step N st ev = st := by
    have h1 : ¬ ("run" = "output") := by decide
    have h2 : ¬ ("run" = "fail") := by decide
    have h3 : ¬ ("run" = "skip") := by decide
    simp [step, hev, h1, h2, h3]
  rw [h]
  exact ⟨rfl, rfl, rfl⟩

/-- The witness of C8: `run` on the window holding `ok`, with one diagnostic
already emitted. -/
theorem run_event_is_noop_witness :
    (step 3 ⟨[mkEvent "output" "ok"], [], [⟨"m", 1, some ⟨"a.go", none⟩⟩]⟩ (mkEvent "run" "")).bufs =
        [mkEvent "output" "ok"] ∧
    (step 3 ⟨[mkEvent "output" "ok"], [], [⟨"m", 1, some ⟨"a.go", none⟩⟩]⟩ (mkEvent "run" "")).encoded =
        [⟨"m", 1, some ⟨"a.go", none⟩⟩] :=
  (run_event_is_noop 3 ⟨[mkEvent "output" "ok"], [], [⟨"m", 1, some ⟨"a.go", none⟩⟩]⟩ (mkEvent "run" "") rfl).2

/-! ## Lemmas on the location extractor -/

theorem Index_singleton (c : Char) (s : List Char) :
    Index s [c] = if c ∈ s then some (s.takeWhile (· != c)).length else none := by
  induction s with
  | nil => simp [Index]
  | cons a t ih =>
    by_cases hca : c = a
    · subst hca
      simp [Index, List.isPrefixOf]
    · have hac : a ≠ c := fun h => hca h.symm
      simp [Index, List.isPrefixOf, ih, hca, hac, List.takeWhile_cons]

theorem take_length_takeWhile (p : Char → Bool) (s : List Char) :
    s.take (s.takeWhile p).length = s.takeWhile p := by
  induction s with
  | nil => rfl
  | cons a t ih =>
    by_cases h : p a
    · simp [List.takeWhile_cons, h, ih]
    · simp [List.takeWhile_cons, h]

theorem drop_length_takeWhile (p : Char → Bool) (s : List Char) :
    s.drop ((s.takeWhile p).length + 1) = (s.dropWhile p).drop 1 := by
  induction s with
  | nil => rfl
  | cons a t ih =>
    by_cases h : p a
    · simp [List.takeWhile_cons, List.dropWhile_cons, h, ih]
    · simp [List.takeWhile_cons, List.dropWhile_cons, h]

theorem splitLoop_colon_succ (k : Nat) (s : List Char) :
    splitLoop [':'] (k + 1) s =
      if ':' ∈ s then beforeColon s :: splitLoop [':'] k (afterColon s) else [s] := by
  rw [splitLoop, Index_singleton]
  by_cases h : ':' ∈ s
  · simp only [h, if_true, List.length_singleton, take_length_takeWhile, drop_length_takeWhile]
    rfl
  · simp only [h, if_false]

theorem count_colon (s : List Char) :
    s.count ':' = if ':' ∈ s then 1 + (afterColon s).count ':' else 0 := by
  induction s with
  | nil => rfl
  | cons a t ih =>
    by_cases hca : a = ':'
    · subst hca
      simp [afterColon, List.dropWhile_cons]
      omega
    · have hac : ':' ≠ a := fun h => hca h.symm
      have h1 : afterColon (a :: t) = afterColon t := by
        simp [afterColon, List.dropWhile_cons, hca]
      rw [h1, List.count_cons_of_ne hac, ih]
      simp [hac]

theorem count_colon_lt_two (s : List Char) :
    s.count ':' < 2 ↔ ¬ (':' ∈ s ∧ ':' ∈ afterColon s) := by
  rw [count_colon s]
  by_cases h : ':' ∈ s
  · rw [if_pos h, count_colon (afterColon s)]
    by_cases h2 : ':' ∈ afterColon s
    · simp only [h, h2, if_true, and_self, not_true_eq_false, iff_false]
      omega
    · simp [h, h2]
  · simp [h]

/-- The three shapes of the result of `SplitN t ":" 3`. -/
theorem SplitN_colon_three (t : String) :
    SplitN t ":" 3 =
      if ':' ∈ t.data then
        if ':' ∈ afterColon t.data then
          [⟨beforeColon t.data⟩, ⟨beforeColon (afterColon t.data)⟩,
            ⟨afterColon (afterColon t.data)⟩]
        else [⟨beforeColon t.data⟩, ⟨afterColon t.data⟩]
      else [t] := by
  have h0 : (":" : String).data = [':'] := rfl
  simp only [SplitN, h0]
  simp only [OfNat.ofNat_ne_zero, if_false, List.cons_ne_nil, Nat.add_one_sub_one]
  rw [show (2 : Nat) = 1 + 1 from rfl, splitLoop_colon_succ]
  by_cases h1 : ':' ∈ t.data
  · rw [if_pos h1, if_pos h1, show (1 : Nat) = 0 + 1 from rfl, splitLoop_colon_succ]
    by_cases h2 : ':' ∈ afterColon t.data
    · rw [if_pos h2, if_pos h2]
      rfl
    · rw [if_neg h2, if_neg h2]
      rfl
  · rw [if_neg h1, if_neg h1]
    rfl

theorem SplitN_colon_three_length_le (t : String) : (SplitN t ":" 3).length ≤ 3 := by
  rw [SplitN_colon_three]
  split_ifs <;> simp

theorem SplitN_colon_three_length_lt (t : String) :
    (SplitN t ":" 3).length < 3 ↔ t.data.count ':' < 2 := by
  rw [SplitN_colon_three, count_colon_lt_two]
  by_cases h1 : ':' ∈ t.data
  · by_cases h2 : ':' ∈ afterColon t.data
    · simp [h1, h2]
    · simp [h1, h2]
  · simp [h1]

theorem SplitN_colon_three_fields (t : String) (h : ¬ t.data.count ':' < 2) :
    (SplitN t ":" 3).getD 0 "" = ⟨beforeColon t.data⟩ ∧
      (SplitN t ":" 3).getD 1 "" = ⟨beforeColon (afterColon t.data)⟩ := by
  rw [count_colon_lt_two, not_not] at h
  rw [SplitN_colon_three, if_pos h.1, if_pos h.2]
  exact ⟨rfl, rfl⟩

theorem parseLoc_eq_none_iff_parts (s : String) :
    parseLoc s = none ↔
      (SplitN (TrimSpace s) ":" 3).length < 3 ∨
        ∃ e, Atoi ((SplitN (TrimSpace s) ":" 3).getD 1 "") = .error e := by
  unfold parseLoc
  by_cases h : (SplitN (TrimSpace s) ":" 3).length < 3
  · simp [h]
  · simp only [h, if_false, false_or]
    cases hA : Atoi ((SplitN (TrimSpace s) ":" 3).getD 1 "") with
    | error e => simp
    | ok line => simp

/-! ## The claims on the location extractor -/

/-- C9: `parseLoc` finds no location exactly when the trimmed line, split on `:`
into at most 3 fields, has fewer than 3 fields or its second field is rejected
by `Atoi`; the split never gives more than 3 fields; it gives fewer than 3
exactly when the trimmed line has fewer than two `:`; and with two or more `:`
the second field is the text between the first and the second `:`.  Since
`parseLoc` returns either nothing or a location, it succeeds in every other case. -/
theorem parseLoc_eq_none_iff (s : String) :
    (parseLoc s = none ↔
      (SplitN (TrimSpace s) ":" 3).length < 3 ∨
        ∃ e, Atoi ((SplitN (TrimSpace s) ":" 3).getD 1 "") = .error e) ∧
    (SplitN (TrimSpace s) ":" 3).length ≤ 3 ∧
    ((SplitN (TrimSpace s) ":" 3).length < 3 ↔ (TrimSpace s).data.count ':' < 2) ∧
    (parseLoc s = none ↔
      (TrimSpace s).data.count ':' < 2 ∨
        ∃ e, Atoi ⟨beforeColon (afterColon (TrimSpace s).data)⟩ = .error e) ∧
    ((parseLoc s).isSome ↔
      2 ≤ (TrimSpace s).data.count ':' ∧
        ∃ line, Atoi ⟨beforeColon (afterColon (TrimSpace s).data)⟩ = .ok line) := by
  have hparts := parseLoc_eq_none_iff_parts s
  have hlen := SplitN_colon_three_length_lt (TrimSpace s)
  have hdecl : parseLoc s = none ↔
      (TrimSpace s).data.count ':' < 2 ∨
        ∃ e, Atoi ⟨beforeColon (afterColon (TrimSpace s).data)⟩ = .error e := by
    rw [hparts, hlen]
    by_cases hc : (TrimSpace s).data.count ':' < 2
    · simp [hc]
    · rw [(SplitN_colon_three_fields (TrimSpace s) hc).2]
  refine ⟨hparts, SplitN_colon_three_length_le _, hlen, hdecl, ?_⟩
  rw [← Option.not_isSome_iff_eq_none] at hdecl
  rw [← not_iff_not, hdecl, not_and_or, not_le]
  apply or_congr Iff.rfl
  cases Atoi ⟨beforeColon (afterColon (TrimSpace s).data)⟩ <;> simp

/-- C10: when `parseLoc` succeeds, the path of the location is field 0, the text
of the trimmed line before its first `:`, and the start line is the integer
that `Atoi` reads from field 1, the text between the first and the second `:`;
the rest of the range is zero. -/
theorem parseLoc_some_fields (s : String) (loc : RDFLocation) (h : parseLoc s = some loc) :
    loc.Path = (SplitN (TrimSpace s) ":" 3).getD 0 "" ∧
    loc.Path = ⟨beforeColon (TrimSpace s).data⟩ ∧
    ∃ line, Atoi ((SplitN (TrimSpace s) ":" 3).getD 1 "") = .ok line ∧
      Atoi ⟨beforeColon (afterColon (TrimSpace s).data)⟩ = .ok line ∧
      loc.Range = some ⟨⟨line, 0⟩, ⟨0, 0⟩⟩ := by
  have hlen : ¬ (SplitN (TrimSpace s) ":" 3).length < 3 := by
    intro hc
    rw [(parseLoc_eq_none_iff_parts s).2 (Or.inl hc)] at h
    exact absurd h (by simp)
  have hc : ¬ (TrimSpace s).data.count ':' < 2 := by
    rwa [← SplitN_colon_three_length_lt]
  have hf := SplitN_colon_three_fields (TrimSpace s) hc
  unfold parseLoc at h
  simp only [hlen, if_false] at h
  rw [← hf.1, ← hf.2]
  cases hA : Atoi ((SplitN (TrimSpace s) ":" 3).getD 1 "") with
  | error e =>
    rw [hA] at h
    exact absurd h (by simp)
  | ok line =>
    rw [hA] at h
    simp only [Option.some.injEq] at h
    subst h
    exact ⟨rfl, rfl, line, rfl, rfl, rfl⟩

/-- The witness of C10: `foo/bar.go:42: boom` yields path `foo/bar.go` and line 42. -/
theorem parseLoc_some_fields_witness :
    parseLoc "foo/bar.go:42: boom" = some ⟨"foo/bar.go", some ⟨⟨42, 0⟩, ⟨0, 0⟩⟩⟩ ∧
    (⟨"foo/bar.go", some ⟨⟨42, 0⟩, ⟨0, 0⟩⟩⟩ : RDFLocation).Path =
      ⟨beforeColon (TrimSpace "foo/bar.go:42: boom").data⟩ ∧
    (⟨beforeColon (TrimSpace "foo/bar.go:42: boom").data⟩ : String) = "foo/bar.go" ∧
    Atoi "42" = .ok 42 :=
  ⟨by decide,
   (parseLoc_some_fields "foo/bar.go:42: boom" ⟨"foo/bar.go", some ⟨⟨42, 0⟩, ⟨0, 0⟩⟩⟩
      (by decide)).2.1,
   by decide, rfl⟩

/-! ## Lemmas on whole runs -/

theorem process_cons (N : Nat) (st : State) (ev : TestEvent) (evs : List TestEvent) :
    process N st (ev :: evs) = process N (step N st ev) evs := rfl

theorem process_append (N : Nat) (st : State) (xs ys : List TestEvent) :
    process N st (xs ++ ys) = process N (process N st xs) ys := by
  simp [process, List.foldl_append]

/-- The encoder receives one more diagnostic exactly at a terminating event
whose window has a parseable line. -/
theorem step_encoded_length (N : Nat) (st : State) (ev : TestEvent) :
    (isTerminating ev = true ∧ (∃ te ∈ st.bufs, parseLoc te.Output ≠ none) ∧
      (step N st ev).encoded.length = st.encoded.length + 1) ∨
    ((isTerminating ev = false ∨ ∀ te ∈ st.bufs, parseLoc te.Output = none) ∧
      (step N st ev).encoded.length = st.encoded.length) := by
  by_cases hev : ev.Action = "fail" ∨ ev.Action = "skip"
  · have ht : isTerminating ev = true := by simp [isTerminating, hev]
    rcases step_terminating_encoded N st ev hev with ⟨hnone, henc⟩ | ⟨hsome, henc⟩
    · right
      exact ⟨Or.inr hnone, by rw [henc]⟩
    · left
      exact ⟨ht, hsome, by rw [henc]; simp⟩
  · right
    have ht : isTerminating ev = false := by simp [isTerminating, hev]
    push_neg at hev
    exact ⟨Or.inl ht, by rw [step_encoded_of_not_terminating N st ev hev.1 hev.2]⟩

theorem emitted_count_from (N : Nat) (evs : List TestEvent) (st : State) :
    (process N st evs).encoded.length ≤ st.encoded.length + evs.countP isTerminating ∧
    ((process N st evs).encoded.length = st.encoded.length + evs.countP isTerminating ↔
      ∀ pre ev post, evs = pre ++ ev :: post → isTerminating ev = true →
        ∃ te ∈ (process N st pre).bufs, parseLoc te.Output ≠ none) := by
  induction evs generalizing st with
  | nil => simp [process]
  | cons e rest ih =>
    obtain ⟨hle, hiff⟩ := ih (step N st e)
    rw [process_cons, List.countP_cons]
    have hsplit : (∀ pre ev post, e :: rest = pre ++ ev :: post → isTerminating ev = true →
          ∃ te ∈ (process N st pre).bufs, parseLoc te.Output ≠ none) ↔
        ((isTerminating e = true → ∃ te ∈ st.bufs, parseLoc te.Output ≠ none) ∧
          ∀ pre ev post, rest = pre ++ ev :: post → isTerminating ev = true →
            ∃ te ∈ (process N (step N st e) pre).bufs, parseLoc te.Output ≠ none) := by
      constructor
      · intro h
        refine ⟨fun ht => h [] e rest rfl ht, ?_⟩
        intro pre ev post hr ht
        have := h (e :: pre) ev post (by rw [hr]; rfl) ht
        rwa [process_cons] at this
      · rintro ⟨h1, h2⟩ pre ev post hr ht
        cases pre with
        | nil =>
          simp only [List.nil_append, List.cons.injEq] at hr
          obtain ⟨rfl, -⟩ := hr
          exact h1 ht
        | cons a pre2 =>
          simp only [List.cons_append, List.cons.injEq] at hr
          obtain ⟨rfl, hr2⟩ := hr
          rw [process_cons]
          exact h2 pre2 ev post hr2 ht
    rw [hsplit]
    rcases step_encoded_length N st e with ⟨ht, hp, hlen⟩ | ⟨hor, hlen⟩
    · rw [hlen] at hle hiff
      simp only [ht, if_true]
      refine ⟨by omega, ?_⟩
      rw [← hiff]
      constructor
      · intro h
        exact ⟨fun _ => hp, by omega⟩
      · rintro ⟨-, h⟩
        omega
    · rw [hlen] at hle hiff
      by_cases ht : isTerminating e = true
      · have hnone : ∀ te ∈ st.bufs, parseLoc te.Output = none := by
          rcases hor with h | h
          · rw [ht] at h
            exact absurd h (by simp)
          · exact h
        simp only [ht, if_true]
        refine ⟨by omega, ?_⟩
        constructor
        · intro h
          omega
        · rintro ⟨h1, -⟩
          obtain ⟨te, hte, hp⟩ := h1 trivial
          exact absurd (hnone te hte) hp
      · have hf : isTerminating e = false := by simpa using ht
        simp only [hf, Bool.false_eq_true, if_false, Nat.add_zero]
        refine ⟨hle, ?_⟩
        rw [hiff]
        constructor
        · intro h
          exact ⟨fun h1 => absurd h1 (by simp), h⟩
        · rintro ⟨-, h⟩
          exact h

theorem makeBufs_of_fits (maxCap N : Nat) (hint : (N + 1) % 2 ^ 64 < 2 ^ 63)
    (hcap : (N + 1) % 2 ^ 64 ≤ maxCap) : makeBufs maxCap N = some [] := by
  have h : (N + 1) % 2 ^ intSize < 2 ^ (intSize - 1) ∧ (N + 1) % 2 ^ intSize ≤ maxCap :=
    ⟨hint, hcap⟩
  simp only [makeBufs, h, and_self, if_true]

/-- When the allocation of the window panics, `run` ends with status 2 and has
read and written nothing. -/
theorem run_of_make_panic (maxCap N : Nat) (records : List (Except String TestEvent))
    (h : ¬ ((N + 1) % 2 ^ 64 < 2 ^ 63 ∧ (N + 1) % 2 ^ 64 ≤ maxCap)) :
    run maxCap N (.ok records) = (2, []) := by
  have h2 : ¬ ((N + 1) % 2 ^ intSize < 2 ^ (intSize - 1) ∧ (N + 1) % 2 ^ intSize ≤ maxCap) := h
  simp only [run, makeBufs, h2, if_false]

/-- The capacities `2 ^ 63 - 1` and `2 ^ 63` make `run` panic whatever the
runtime limit and the input; the capacity `2 ^ 64 - 1` wraps to an allocation
of 0 elements and never does. -/
theorem run_large_capacities (maxCap : Nat) (records : List (Except String TestEvent)) :
    run maxCap 9223372036854775807 (.ok records) = (2, []) ∧
    run maxCap 9223372036854775808 (.ok records) = (2, []) ∧
    makeBufs maxCap 18446744073709551615 = some [] := by
  refine ⟨run_of_make_panic _ _ _ (fun h => absurd h.1 (by decide)),
    run_of_make_panic _ _ _ (fun h => absurd h.1 (by decide)), ?_⟩
  exact makeBufs_of_fits _ _ (by decide) (by simp)

theorem parseLoc_Range (s : String) (loc : RDFLocation) (h : parseLoc s = some loc) :
    ∃ line, loc.Range = some ⟨⟨line, 0⟩, ⟨0, 0⟩⟩ := by
  unfold parseLoc at h
  by_cases hlen : (SplitN (TrimSpace s) ":" 3).length < 3
  · simp [hlen] at h
  · simp only [hlen, if_false] at h
    cases hA : Atoi ((SplitN (TrimSpace s) ":" 3).getD 1 "") with
    | error e =>
      rw [hA] at h
      exact absurd h (by simp)
    | ok line =>
      rw [hA] at h
      simp only [Option.some.injEq] at h
      subst h
      exact ⟨line, rfl⟩

/-- The location of the diagnostic under construction is the one it started
with or the result of `parseLoc` on a line of the window. -/
theorem foldl_accumulate_Location_mem (bufs : List TestEvent) (d : RDFDiagnostic) :
    (bufs.foldl accumulate d).Location = d.Location ∨
      ∃ te ∈ bufs, ∃ loc, parseLoc te.Output = some loc ∧
        (bufs.foldl accumulate d).Location = some loc := by
  induction bufs generalizing d with
  | nil => exact Or.inl rfl
  | cons te rest ih =>
    rw [List.foldl_cons]
    rcases ih (accumulate d te) with h | ⟨x, hx, loc, hloc, h⟩
    · rw [h, accumulate_Location]
      cases hp : parseLoc te.Output with
      | none => exact Or.inl rfl
      | some loc => exact Or.inr ⟨te, List.mem_cons_self _ _, loc, hp, rfl⟩
    · exact Or.inr ⟨x, List.mem_cons_of_mem _ hx, loc, hloc, h⟩

/-- Every diagnostic the encoder receives in a step was there before or is
located by a result of `parseLoc`. -/
theorem step_encoded_mem (N : Nat) (st : State) (ev : TestEvent) (d : RDFDiagnostic)
    (h : d ∈ (step N st ev).encoded) :
    d ∈ st.encoded ∨ ∃ s loc, parseLoc s = some loc ∧ d.Location = some loc := by
  by_cases hev : ev.Action = "fail" ∨ ev.Action = "skip"
  · rcases step_terminating_encoded N st ev hev with ⟨_, henc⟩ | ⟨hsome, henc⟩
    · rw [henc] at h
      exact Or.inl h
    · rw [henc, List.mem_append, List.mem_singleton] at h
      rcases h with h | h
      · exact Or.inl h
      · right
        subst h
        unfold buildDiag
        rcases foldl_accumulate_Location_mem st.bufs
          ⟨"", if ev.Action = "fail" then RDFSeverityError else RDFSeverityInfo, none⟩
          with h0 | ⟨te, _, loc, hloc, hl⟩
        · exfalso
          have hnone := (buildDiag_Location_eq_none
            (if ev.Action = "fail" then RDFSeverityError else RDFSeverityInfo) st.bufs).1 h0
          obtain ⟨te, hte, hp⟩ := hsome
          exact hp (hnone te hte)
        · exact ⟨te.Output, loc, hloc, hl⟩
  · push_neg at hev
    rw [step_encoded_of_not_terminating N st ev hev.1 hev.2] at h
    exact Or.inl h

theorem process_encoded_mem (N : Nat) (evs : List TestEvent) (st : State) (d : RDFDiagnostic)
    (h : d ∈ (process N st evs).encoded) :
    d ∈ st.encoded ∨ ∃ s loc, parseLoc s = some loc ∧ d.Location = some loc := by
  induction evs generalizing st with
  | nil => exact Or.inl h
  | cons e rest ih =>
    rw [process_cons] at h
    rcases ih _ h with h1 | h1
    · exact step_encoded_mem N st e d h1
    · exact Or.inr h1

/-- With an empty window nothing is emitted, whatever the event. -/
theorem step_encoded_of_bufs_nil (N : Nat) (st : State) (ev : TestEvent) (h : st.bufs = []) :
    (step N st ev).encoded = st.encoded := by
  by_cases hev : ev.Action = "fail" ∨ ev.Action = "skip"
  · rcases step_terminating_encoded N st ev hev with ⟨_, henc⟩ | ⟨⟨te, hte, _⟩, _⟩
    · exact henc
    · rw [h] at hte
      exact absurd hte (by simp)
  · push_neg at hev
    exact step_encoded_of_not_terminating N st ev hev.1 hev.2

theorem process_zero_capacity (evs : List TestEvent) (st : State) (h : st.bufs = []) :
    (process 0 st evs).bufs = [] ∧ (process 0 st evs).encoded = st.encoded := by
  induction evs generalizing st with
  | nil => exact ⟨h, rfl⟩
  | cons e rest ih =>
    have hb : (step 0 st e).bufs = [] := by
      have := step_bufs_length_le 0 st e (by simp [h])
      exact List.length_eq_zero.1 (Nat.le_zero.1 this)
    obtain ⟨h1, h2⟩ := ih (step 0 st e) hb
    rw [process_cons]
    exact ⟨h1, by rw [h2, step_encoded_of_bufs_nil 0 st e h]⟩

theorem uintToInt_of_lt (N : Nat) (h : N < 2 ^ 63) : uintToInt N = (N : Int) := by
  have h1 : N % 2 ^ intSize = N := Nat.mod_eq_of_lt (by unfold intSize; omega)
  have h2 : N < 2 ^ (intSize - 1) := h
  simp only [uintToInt, h1, h2, if_true]

theorem step_output_bufs (N : Nat) (st : State) (ev : TestEvent) (hev : ev.Action = "output")
    (hN : N < 2 ^ 63) :
    (step N st ev).bufs =
      if N < st.bufs.length + 1 then (st.bufs ++ [ev]).drop 1 else st.bufs ++ [ev] := by
  have hfull : slice (st.bufs ++ [ev]) 1 (st.bufs ++ [ev]).length = (st.bufs ++ [ev]).drop 1 := by
    unfold slice
    rw [List.take_length]
  simp only [step, hev, if_true, uintToInt_of_lt N hN, hfull]
  by_cases h : N < st.bufs.length + 1
  · have h2 : (N : Int) < ((st.bufs ++ [ev]).length : Int) := by
      rw [List.length_append, List.length_singleton]; exact_mod_cast h
    rw [if_pos h2, if_pos h]
  · have h2 : ¬ (N : Int) < ((st.bufs ++ [ev]).length : Int) := by
      rw [List.length_append, List.length_singleton]; exact_mod_cast h
    rw [if_neg h2, if_neg h]

/-- For a capacity below `2 ^ 63`, pushing `output` events onto the empty window
leaves the last `min N k` of them, in order. -/
theorem output_pushes_fifo (N : Nat) (hN : N < 2 ^ 63) (evs : List TestEvent)
    (hout : ∀ e ∈ evs, e.Action = "output") :
    (process N State.init evs).bufs = evs.drop (evs.length - min N evs.length) := by
  induction evs using List.reverseRecOn with
  | nil => simp [process, State.init]
  | append_singleton xs e ih =>
    have ih2 := ih (fun x hx => hout x (List.mem_append_left _ hx))
    have he : e.Action = "output" := hout e (by simp)
    rw [process_append]
    show (step N (process N State.init xs) e).bufs = _
    rw [step_output_bufs N _ e he hN, ih2]
    simp only [List.length_drop, List.length_append, List.length_singleton]
    by_cases hk : N ≤ xs.length
    · have h1 : N < xs.length - (xs.length - min N xs.length) + 1 := by
        rw [Nat.min_eq_left hk]; omega
      rw [if_pos h1, Nat.min_eq_left hk, Nat.min_eq_left (by omega : N ≤ xs.length + 1),
        ← List.drop_append_of_le_length (by omega : xs.length - N ≤ xs.length), List.drop_drop]
      congr 1
      omega
    · have h1 : ¬ N < xs.length - (xs.length - min N xs.length) + 1 := by
        rw [Nat.min_eq_right (by omega : xs.length ≤ N)]; omega
      rw [if_neg h1, Nat.min_eq_right (by omega : xs.length ≤ N),
        Nat.min_eq_right (by omega : xs.length + 1 ≤ N)]
      simp

theorem foldl_accumulate_Location_congr (bufs : List TestEvent) (d1 d2 : RDFDiagnostic)
    (h : d1.Location = d2.Location) :
    (bufs.foldl accumulate d1).Location = (bufs.foldl accumulate d2).Location := by
  induction bufs generalizing d1 d2 with
  | nil => exact h
  | cons te rest ih =>
    rw [List.foldl_cons, List.foldl_cons]
    apply ih
    rw [accumulate_Location, accumulate_Location, h]

theorem buildDiag_Location_insert (sev : RDFSeverity) (pre post : List TestEvent)
    (l : TestEvent) (hl : parseLoc l.Output = none) :
    (buildDiag sev (pre ++ l :: post)).Location = (buildDiag sev (pre ++ post)).Location := by
  unfold buildDiag
  rw [List.foldl_append, List.foldl_append, List.foldl_cons]
  apply foldl_accumulate_Location_congr
  rw [accumulate_Location, hl]
  rfl

/-! ## The claims on whole runs -/

/-- C11: for every capacity and every sequence of events processed from the
initial state, the number of emitted diagnostics is at most the number of
`fail` and `skip` events, and it equals that number if and only if at every
`fail` or `skip` event the window, as it is when the event is processed, holds
a line on which `parseLoc` succeeds. -/
theorem emitted_count_le_terminating (N : Nat) (evs : List TestEvent) :
    (process N State.init evs).encoded.length ≤ evs.countP isTerminating ∧
    ((process N State.init evs).encoded.length = evs.countP isTerminating ↔
      ∀ pre ev post, evs = pre ++ ev :: post → isTerminating ev = true →
        ∃ te ∈ (process N State.init pre).bufs, parseLoc te.Output ≠ none) := by
  have h := emitted_count_from N evs State.init
  simpa [State.init] using h

/-- C13: every diagnostic emitted in a run from the initial state has a
location, the location has a range, and in that range the start column, the end
line and the end column are 0. -/
theorem emitted_location_only_start_line (N : Nat) (evs : List TestEvent) (d : RDFDiagnostic)
    (h : d ∈ (process N State.init evs).encoded) :
    ∃ loc r, d.Location = some loc ∧ loc.Range = some r ∧
      r.Start.Column = 0 ∧ r.End.Line = 0 ∧ r.End.Column = 0 := by
  rcases process_encoded_mem N evs State.init d h with h0 | ⟨s, loc, hs, hl⟩
  · exact absurd h0 (by simp [State.init])
  · obtain ⟨line, hr⟩ := parseLoc_Range s loc hs
    exact ⟨loc, _, hl, hr, rfl, rfl, rfl⟩

/-- The witness of C13: the diagnostic emitted by `output "foo/bar.go:42: boom"`,
`fail`. -/
theorem emitted_location_only_start_line_witness :
    ∃ loc r, (⟨"foo/bar.go:42: boom", RDFSeverityError,
        some ⟨"foo/bar.go", some ⟨⟨42, 0⟩, ⟨0, 0⟩⟩⟩⟩ : RDFDiagnostic).Location = some loc ∧
      loc.Range = some r ∧ r.Start.Column = 0 ∧ r.End.Line = 0 ∧ r.End.Column = 0 :=
  emitted_location_only_start_line 3
    [mkEvent "output" "foo/bar.go:42: boom", mkEvent "fail" ""] _ (by decide)

/-- C15: with capacity 0 the window is empty after every event of every
sequence processed from the initial state, and no diagnostic is emitted. -/
theorem zero_capacity_retains_nothing (evs : List TestEvent) (k : Nat) :
    (process 0 State.init (evs.take k)).bufs = [] ∧ (process 0 State.init evs).encoded = [] :=
  ⟨(process_zero_capacity (evs.take k) State.init rfl).1,
   (process_zero_capacity evs State.init rfl).2⟩

/-- C14: evaluation at the failing input.  With capacity `2 ^ 64 - 1`, the
largest value of the flag, the conversion `int(bufLines)` is -1: the window is
empty after one `output` event, where the last `min N 1 = 1` events are that
event, and a following `fail` emits nothing although the line parses.  For
capacity 1 the scenario of the claim holds: after `output "a.go:1: x"`,
`output "no location here"` only the second line is in the window, and `skip`
emits nothing. -/
theorem huge_capacity_window_retains_nothing :
    (uintToInt 18446744073709551615 = -1 ∧
      (process 18446744073709551615 State.init [mkEvent "output" "a.go:1: x"]).bufs.map
        TestEvent.Output = [] ∧
      min 18446744073709551615 [mkEvent "output" "a.go:1: x"].length = 1 ∧
      (process 18446744073709551615 State.init
        [mkEvent "output" "a.go:1: x", mkEvent "fail" ""]).encoded = [] ∧
      parseLoc "a.go:1: x" = some ⟨"a.go", some ⟨⟨1, 0⟩, ⟨0, 0⟩⟩⟩) ∧
    ((process 1 State.init [mkEvent "output" "a.go:1: x",
        mkEvent "output" "no location here"]).bufs.map TestEvent.Output =
          ["no location here"] ∧
      (process 1 State.init [mkEvent "output" "a.go:1: x",
        mkEvent "output" "no location here", mkEvent "skip" ""]).encoded = []) := by
  decide

/-- C16: a line on which `parseLoc` fails, inserted at any position of the
window, does not change the location chosen by the synthesis: the diagnostic
built has the same location, and a `fail` or `skip` event (any event, in fact)
emits diagnostics with the same locations. -/
theorem location_ignores_unparseable_line (N : Nat) (pre post : List TestEvent)
    (l ev : TestEvent) (ds enc : List RDFDiagnostic) (hl : parseLoc l.Output = none) :
    (∀ sev, (buildDiag sev (pre ++ l :: post)).Location =
      (buildDiag sev (pre ++ post)).Location) ∧
    (step N ⟨pre ++ l :: post, ds, enc⟩ ev).encoded.map RDFDiagnostic.Location =
      (step N ⟨pre ++ post, ds, enc⟩ ev).encoded.map RDFDiagnostic.Location := by
  have hb := fun sev => buildDiag_Location_insert sev pre post l hl
  refine ⟨hb, ?_⟩
  by_cases hev : ev.Action = "fail" ∨ ev.Action = "skip"
  · rw [step_terminating N _ ev hev, step_terminating N _ ev hev]
    generalize (if ev.Action = "fail" then RDFSeverityError else RDFSeverityInfo) = sev
    by_cases h : (buildDiag sev (pre ++ post)).Location = none
    · have h2 : (buildDiag sev (pre ++ l :: post)).Location = none := by rw [hb, h]
      rw [terminate_encoded_of_none sev _ h2, terminate_encoded_of_none sev _ h]
    · have h2 : (buildDiag sev (pre ++ l :: post)).Location ≠ none := by rw [hb]; exact h
      rw [terminate_encoded_of_some sev _ h2, terminate_encoded_of_some sev _ h]
      simp only [List.map_append, List.map_cons, List.map_nil, hb]
  · push_neg at hev
    rw [step_encoded_of_not_terminating N _ ev hev.1 hev.2,
      step_encoded_of_not_terminating N _ ev hev.1 hev.2]

/-- The witness of C16: with capacity 3, `output "x_test.go:10: a\n"`,
`output "more context\n"`, `fail` emits one diagnostic, with both lines as its
message and located at `x_test.go` line 10, the location of the window without
the second line. -/
theorem location_ignores_unparseable_line_witness :
    (process 3 State.init [mkEvent "output" "x_test.go:10: a\n",
        mkEvent "output" "more context\n", mkEvent "fail" ""]).encoded =
      [⟨"x_test.go:10: a\nmore context\n", RDFSeverityError,
        some ⟨"x_test.go", some ⟨⟨10, 0⟩, ⟨0, 0⟩⟩⟩⟩] ∧
    (step 3 ⟨[mkEvent "output" "x_test.go:10: a\n"] ++
        mkEvent "output" "more context\n" :: [], [], []⟩
        (mkEvent "fail" "")).encoded.map RDFDiagnostic.Location =
      (step 3 ⟨[mkEvent "output" "x_test.go:10: a\n"] ++ [], [], []⟩
        (mkEvent "fail" "")).encoded.map RDFDiagnostic.Location :=
  ⟨by decide,
   (location_ignores_unparseable_line 3 [mkEvent "output" "x_test.go:10: a\n"] []
      (mkEvent "output" "more context\n") (mkEvent "fail" "") [] [] (by decide)).2⟩

/-! ## Lemmas on trimming and on the fields of a line -/

theorem TrimSpace_data (s : String) :
    (TrimSpace s).data = List.rdropWhile isSpace (s.data.dropWhile isSpace) := rfl

theorem rdropWhile_append_of_pos (x b : List Char) (hb : ∀ c ∈ b, isSpace c = true) :
    List.rdropWhile isSpace (x ++ b) = List.rdropWhile isSpace x := by
  induction b using List.reverseRecOn with
  | nil => simp
  | append_singleton b2 c ih =>
    rw [← List.append_assoc, List.rdropWhile_concat_pos _ _ _ (hb c (by simp))]
    exact ih (fun d hd => hb d (List.mem_append_left _ hd))

theorem rdropWhile_append_cons_neg (x y : List Char) (c : Char) (hc : isSpace c = false) :
    List.rdropWhile isSpace (x ++ c :: y) = x ++ c :: List.rdropWhile isSpace y := by
  induction y using List.reverseRecOn with
  | nil =>
    have hn : ¬ isSpace c = true := by simp [hc]
    rw [List.rdropWhile_concat_neg _ _ _ hn]
    simp
  | append_singleton y2 d ih =>
    have e1 : x ++ c :: (y2 ++ [d]) = (x ++ c :: y2) ++ [d] := by simp
    rw [e1]
    by_cases hd : isSpace d = true
    · rw [List.rdropWhile_concat_pos _ _ _ hd, List.rdropWhile_concat_pos _ _ _ hd, ih]
    · rw [List.rdropWhile_concat_neg _ _ _ hd, List.rdropWhile_concat_neg _ _ _ hd]
      simp

/-- White space around a line does not change what `TrimSpace` returns. -/
theorem TrimSpace_surrounded (a s b : String) (ha : ∀ c ∈ a.data, isSpace c = true)
    (hb : ∀ c ∈ b.data, isSpace c = true) : TrimSpace (a ++ s ++ b) = TrimSpace s := by
  apply String.ext
  rw [TrimSpace_data, TrimSpace_data, String.data_append, String.data_append,
    List.append_assoc, List.dropWhile_append_of_pos ha, List.dropWhile_append]
  by_cases he : (s.data.dropWhile isSpace).isEmpty = true
  · rw [if_pos he]
    have h1 : s.data.dropWhile isSpace = [] := List.isEmpty_iff.1 he
    have h2 : b.data.dropWhile isSpace = [] := List.dropWhile_eq_nil_iff.2 hb
    rw [h1, h2]
  · rw [if_neg he]
    exact rdropWhile_append_of_pos _ _ hb

theorem beforeColon_append (p y : List Char) (hp : ':' ∉ p) :
    beforeColon (p ++ ':' :: y) = p := by
  induction p with
  | nil => simp [beforeColon]
  | cons a t ih =>
    have ha : a ≠ ':' := fun h => hp (by simp [h])
    have ht : ':' ∉ t := fun h => hp (List.mem_cons_of_mem _ h)
    have := ih ht
    simp only [beforeColon] at this ⊢
    simp [List.takeWhile_cons, ha, this]

theorem afterColon_append (p y : List Char) (hp : ':' ∉ p) :
    afterColon (p ++ ':' :: y) = y := by
  induction p with
  | nil => simp [afterColon]
  | cons a t ih =>
    have ha : a ≠ ':' := fun h => hp (by simp [h])
    have ht : ':' ∉ t := fun h => hp (List.mem_cons_of_mem _ h)
    have := ih ht
    simp only [afterColon] at this ⊢
    simp [List.dropWhile_cons, ha, this]

theorem colon_not_mem_of_digits (ds : List Char) (hd : ds.all isDigit = true) : ':' ∉ ds := by
  intro h
  have := List.all_eq_true.1 hd ':' h
  exact absurd this (by decide)

/-- A line that starts with a path free of `:` and of leading white space,
followed by `:`, is trimmed on the right of that `:` only. -/
theorem TrimSpace_path_line (p y : List Char) (hhead : ∀ c, p.head? = some c → isSpace c = false) :
    (TrimSpace ⟨p ++ ':' :: y⟩).data = p ++ ':' :: List.rdropWhile isSpace y := by
  have hc : isSpace ':' = false := by decide
  have hl : (p ++ ':' :: y).dropWhile isSpace = p ++ ':' :: y := by
    cases p with
    | nil => simp [List.dropWhile_cons, hc]
    | cons a t =>
      have ha : isSpace a = false := hhead a rfl
      simp [List.dropWhile_cons, ha]
  rw [TrimSpace_data]
  show List.rdropWhile isSpace ((p ++ ':' :: y).dropWhile isSpace) = _
  rw [hl, rdropWhile_append_cons_neg _ _ _ hc]

theorem parseLoc_of_fields (s : String) (line : Int) (h1 : ':' ∈ (TrimSpace s).data)
    (h2 : ':' ∈ afterColon (TrimSpace s).data)
    (hA : Atoi ⟨beforeColon (afterColon (TrimSpace s).data)⟩ = .ok line) :
    parseLoc s = some ⟨⟨beforeColon (TrimSpace s).data⟩, some ⟨⟨line, 0⟩, ⟨0, 0⟩⟩⟩ := by
  unfold parseLoc
  rw [SplitN_colon_three, if_pos h1, if_pos h2]
  simp only [List.length_cons, List.length_nil, List.getD_cons_succ, List.getD_cons_zero]
  rw [hA]
  simp

theorem parseLoc_of_one_colon (s : String) (h2 : ':' ∉ afterColon (TrimSpace s).data) :
    parseLoc s = none := by
  rw [parseLoc_eq_none_iff_parts]
  left
  rw [SplitN_colon_three_length_lt, count_colon_lt_two]
  exact fun h => h2 h.2

theorem parseLoc_some_Path (s : String) (loc : RDFLocation) (h : parseLoc s = some loc) :
    loc.Path = ⟨beforeColon (TrimSpace s).data⟩ := by
  have hlen : ¬ (SplitN (TrimSpace s) ":" 3).length < 3 := by
    intro hc
    rw [(parseLoc_eq_none_iff_parts s).2 (Or.inl hc)] at h
    exact absurd h (by simp)
  have hc : ¬ (TrimSpace s).data.count ':' < 2 := by
    rwa [← SplitN_colon_three_length_lt]
  have hf := SplitN_colon_three_fields (TrimSpace s) hc
  unfold parseLoc at h
  simp only [hlen, if_false] at h
  rw [← hf.1]
  cases hA : Atoi ((SplitN (TrimSpace s) ":" 3).getD 1 "") with
  | error e =>
    rw [hA] at h
    exact absurd h (by simp)
  | ok line =>
    rw [hA] at h
    simp only [Option.some.injEq] at h
    subst h
    rfl

theorem Atoi_digits (ds : List Char) (hne : ds ≠ []) (hd : ds.all isDigit = true)
    (hr : digitsVal ds < 2 ^ 63) : Atoi ⟨ds⟩ = .ok (digitsVal ds : Int) := by
  cases ds with
  | nil => exact absurd rfl hne
  | cons c t =>
    have hc : isDigit c = true := List.all_eq_true.1 hd c (List.mem_cons_self _ _)
    have h1 : c ≠ '-' := by
      intro h
      rw [h] at hc
      exact absurd hc (by decide)
    have h2 : c ≠ '+' := by
      intro h
      rw [h] at hc
      exact absurd hc (by decide)
    have hr2 : ¬ (2 ^ (intSize - 1) ≤ digitsVal (c :: t)) := by
      show ¬ (2 ^ 63 ≤ digitsVal (c :: t))
      omega
    unfold Atoi
    split
    rename_i neg ds heq
    split at heq
    · rename_i t2 hm
      simp only [List.cons.injEq] at hm
      exact absurd hm.1 h1
    · rename_i t2 hm
      simp only [List.cons.injEq] at hm
      exact absurd hm.1 h2
    · simp only [Prod.mk.injEq] at heq
      obtain ⟨rfl, rfl⟩ := heq
      simp [hd, hr2]

/-! ## Further claims on the location extractor -/

/-- C17, as stated, fails: the path `a.go` has no `:`, and on the line `a.go:3`,
which has no second `:`, `parseLoc` finds no location, while on `a.go:3:rest`
it finds `a.go` line 3.  With the second `:` present, a path that starts with
white space is returned trimmed, and the line number `2 ^ 63` is rejected. -/
theorem parseLoc_without_second_colon_fails :
    ':' ∉ "a.go".data ∧ parseLoc "a.go:3" = none ∧
      parseLoc "a.go:3:rest" = some ⟨"a.go", some ⟨⟨3, 0⟩, ⟨0, 0⟩⟩⟩ ∧
      parseLoc " a.go:3:rest" = some ⟨"a.go", some ⟨⟨3, 0⟩, ⟨0, 0⟩⟩⟩ ∧
      parseLoc "a.go:9223372036854775808:rest" = none := by
  decide

/-- C17, amended: the second `:` is required.  For every path `p` with no `:`
and no leading white space and every non-empty string of decimal digits `ds`
whose value is below `2 ^ 63`, `parseLoc` finds no location on the line `p:ds`,
and on the line `p:ds:rest` it succeeds with path `p` and line the value of `ds`. -/
theorem parseLoc_second_colon_required (p ds rest : List Char) (hp : ':' ∉ p)
    (hhead : ∀ c, p.head? = some c → isSpace c = false) (hne : ds ≠ [])
    (hd : ds.all isDigit = true) (hr : digitsVal ds < 2 ^ 63) :
    parseLoc ⟨p ++ ':' :: ds⟩ = none ∧
    parseLoc ⟨p ++ ':' :: (ds ++ ':' :: rest)⟩ =
      some ⟨⟨p⟩, some ⟨⟨(digitsVal ds : Int), 0⟩, ⟨0, 0⟩⟩⟩ := by
  have hds := colon_not_mem_of_digits ds hd
  constructor
  · apply parseLoc_of_one_colon
    rw [TrimSpace_path_line p ds hhead, afterColon_append p _ hp]
    exact fun h => hds ((List.rdropWhile_prefix isSpace _).subset h)
  · have hc : isSpace ':' = false := by decide
    have ht : (TrimSpace ⟨p ++ ':' :: (ds ++ ':' :: rest)⟩).data =
        p ++ ':' :: (ds ++ ':' :: List.rdropWhile isSpace rest) := by
      rw [TrimSpace_path_line p _ hhead, rdropWhile_append_cons_neg _ _ _ hc]
    have h := parseLoc_of_fields ⟨p ++ ':' :: (ds ++ ':' :: rest)⟩ (digitsVal ds : Int)
      (by rw [ht]; simp)
      (by rw [ht, afterColon_append p _ hp]; simp)
      (by rw [ht, afterColon_append p _ hp, beforeColon_append ds _ hds]
          exact Atoi_digits ds hne hd hr)
    rw [h, ht, beforeColon_append p _ hp]

/-- The witness of C17, amended: `a.go:3` gives no location, `a.go:3: x` gives
`a.go` line 3. -/
theorem parseLoc_second_colon_required_witness :
    parseLoc ⟨"a.go".data ++ ':' :: "3".data⟩ = none ∧
    parseLoc ⟨"a.go".data ++ ':' :: ("3".data ++ ':' :: " x".data)⟩ =
      some ⟨⟨"a.go".data⟩, some ⟨⟨(digitsVal "3".data : Int), 0⟩, ⟨0, 0⟩⟩⟩ ∧
    (⟨"a.go".data ++ ':' :: ("3".data ++ ':' :: " x".data)⟩ : String) = "a.go:3: x" ∧
    digitsVal "3".data = 3 :=
  ⟨(parseLoc_second_colon_required "a.go".data "3".data " x".data (by decide) (by decide)
      (by decide) (by decide) (by decide)).1,
   (parseLoc_second_colon_required "a.go".data "3".data " x".data (by decide) (by decide)
      (by decide) (by decide) (by decide)).2,
   by decide, by decide⟩

/-- C18: white space around a line does not change the result of `parseLoc`:
for all strings `a`, `b` of white-space characters (spaces, tabs, newlines and
the other characters of `unicode.IsSpace`), `parseLoc (a ++ s ++ b) = parseLoc s`. -/
theorem parseLoc_surrounding_space (a s b : String) (ha : ∀ c ∈ a.data, isSpace c = true)
    (hb : ∀ c ∈ b.data, isSpace c = true) : parseLoc (a ++ s ++ b) = parseLoc s := by
  unfold parseLoc
  rw [TrimSpace_surrounded a s b ha hb]

/-- The witness of C18: the indented line of `Test_ng`,
`    test_test.go:10: failing` with its newline, yields path `test_test.go`
and line 10, as the bare line does. -/
theorem parseLoc_surrounding_space_witness :
    parseLoc ("    " ++ "test_test.go:10: failing" ++ "\n") =
      parseLoc "test_test.go:10: failing" ∧
    parseLoc "    test_test.go:10: failing\n" =
      some ⟨"test_test.go", some ⟨⟨10, 0⟩, ⟨0, 0⟩⟩⟩ :=
  ⟨parseLoc_surrounding_space "    " "test_test.go:10: failing" "\n" (by decide) (by decide),
   by decide⟩

/-- C19: when `parseLoc` succeeds, the path it returns contains no `:` and does
not start with a white-space character; so no path with a `:` in it is ever
returned, and on the drive-letter line `C:\x\a_test.go:10: msg` nothing is
returned at all. -/
theorem parseLoc_path_has_no_colon (s : String) (loc : RDFLocation)
    (h : parseLoc s = some loc) :
    ':' ∉ loc.Path.data ∧ (∀ c, loc.Path.data.head? = some c → isSpace c = false) ∧
    (∀ q : String, ':' ∈ q.data → loc.Path ≠ q) ∧
    parseLoc "C:\\x\\a_test.go:10: msg" = none := by
  have hP := parseLoc_some_Path s loc h
  have hcolon : ':' ∉ loc.Path.data := by
    rw [hP]
    intro hm
    have := List.mem_takeWhile_imp hm
    simp at this
  refine ⟨hcolon, ?_, ?_, by decide⟩
  · intro c hc
    rw [hP] at hc
    have hpre : beforeColon (TrimSpace s).data <+: s.data.dropWhile isSpace :=
      (List.takeWhile_prefix _).trans (List.rdropWhile_prefix isSpace _)
    obtain ⟨r, hr⟩ := hpre
    have hhead : (s.data.dropWhile isSpace).head? = some c := by
      rw [← hr]
      cases hb : beforeColon (TrimSpace s).data with
      | nil =>
        rw [show (⟨beforeColon (TrimSpace s).data⟩ : String).data =
          beforeColon (TrimSpace s).data from rfl, hb] at hc
        exact absurd hc (by simp)
      | cons x xs =>
        rw [show (⟨beforeColon (TrimSpace s).data⟩ : String).data =
          beforeColon (TrimSpace s).data from rfl, hb] at hc
        simpa using hc
    have hnot := List.head?_dropWhile_not isSpace s.data
    rw [hhead] at hnot
    exact hnot
  · intro q hq heq
    rw [heq] at hcolon
    exact hcolon hq

/-- The witness of C19: on the indented line `  C:10:\x\a_test.go` the path
returned is `C`, which has no `:` and no leading white space. -/
theorem parseLoc_path_has_no_colon_witness :
    parseLoc "  C:10:\\x\\a_test.go" = some ⟨"C", some ⟨⟨10, 0⟩, ⟨0, 0⟩⟩⟩ ∧
    ':' ∉ (⟨"C", some ⟨⟨10, 0⟩, ⟨0, 0⟩⟩⟩ : RDFLocation).Path.data :=
  ⟨by decide,
   (parseLoc_path_has_no_colon "  C:10:\\x\\a_test.go" ⟨"C", some ⟨⟨10, 0⟩, ⟨0, 0⟩⟩⟩
      (by decide)).1⟩

/-- C20: `parseLoc` accepts lines that are no source location: on the
timestamped log line `2024/01/01 12:00:00 msg` it succeeds with path
`2024/01/01 12` and line 0, and on `a.go:-3: x` it succeeds with the negative
line -3. -/
theorem parseLoc_accepts_non_locations :
    parseLoc "2024/01/01 12:00:00 msg" =
      some ⟨"2024/01/01 12", some ⟨⟨0, 0⟩, ⟨0, 0⟩⟩⟩ ∧
    parseLoc "a.go:-3: x" = some ⟨"a.go", some ⟨⟨-3, 0⟩, ⟨0, 0⟩⟩⟩ := by
  decide

end Gotest2rdjsonl
